import Mathlib

/-!
Verification development for the `YAMLTraversal` service
(`src/language-service/src/services/yamlTraversal.ts`).

The TypeScript code is shallowly embedded below.  The external AST
collaborator (`jsonParser`, not part of the analysed sources) is modelled
from the specification's description of its interface: typed nodes
(`Object`, `Array`, `Property`, scalar) with start/end byte offsets, an
array `location` tag, a property key, and a `getValue()` read-out.

Mutation in the original code (the call-local `nodeMap`, the `tempId`
tags written onto AST nodes, and the in-place child-list surgery of
`_flattenArrays`) is translated into explicit context passing and
explicit state threading; thrown `TypeError`s (null dereferences) are
translated into `Option.none` results.
-/

/-- A line/character position, as produced by `document.positionAt`. -/
structure Position where
  line : Nat
  character : Nat
deriving DecidableEq, Repr

/-- The document collaborator: offset/position conversions only. -/
structure TextDocument where
  positionAt : Nat → Position
  offsetAt : Position → Nat

/-- Result node of `getObjectTree` (interface `YamlObjectNode`).
`value` is `none` where the TypeScript stores `null`; `isArray` is
`false` where the optional TypeScript field is absent. -/
inductive YamlObjectNode : Type where
  | mk (key : String) (value : Option String) (children : List YamlObjectNode)
       (startPosition : Position) (endPosition : Position) (isArray : Bool)

/-- Key projection. -/
def YamlObjectNode.key : YamlObjectNode → String
  | .mk k _ _ _ _ _ => k

/-- Value projection. -/
def YamlObjectNode.value : YamlObjectNode → Option String
  | .mk _ v _ _ _ _ => v

/-- Children projection. -/
def YamlObjectNode.children : YamlObjectNode → List YamlObjectNode
  | .mk _ _ cs _ _ _ => cs

/-- Start-position projection. -/
def YamlObjectNode.startPosition : YamlObjectNode → Position
  | .mk _ _ _ s _ _ => s

/-- End-position projection. -/
def YamlObjectNode.endPosition : YamlObjectNode → Position
  | .mk _ _ _ _ e _ => e

/-- isArray projection. -/
def YamlObjectNode.isArray : YamlObjectNode → Bool
  | .mk _ _ _ _ _ a => a

/-- Replace the children of a node, keeping every other field
(the shape of the TypeScript assignment `node.children = ...`). -/
def YamlObjectNode.withChildren : YamlObjectNode → List YamlObjectNode → YamlObjectNode
  | .mk k v _ s e a, cs => .mk k v cs s e a

/-- Result entry of `findNodes` (interface `YamlNodeInfo`). -/
structure YamlNodeInfo where
  startPosition : Position
  endPosition : Position
  key : String
  value : String
deriving DecidableEq, Repr

/-- Result of `getNodePropertyValues` (interface `YamlNodePropertyValues`).
The TypeScript value map is a string-keyed object; it is modelled as an
insertion-ordered association list, `none` standing for the `null` map. -/
structure YamlNodePropertyValues where
  values : Option (List (String × String))
deriving DecidableEq, Repr

/-- Modelled from the spec: the external AST node type of the parser
collaborator (`jsonParser`, outside the analysed sources).  Kinds are
`Object` (with its property list), `Array` (with its `location` tag and
items), `Property` (key and value sub-node) and scalar values; every
node carries start/end byte offsets. -/
inductive ASTNode : Type where
  | obj (start stop : Nat) (properties : List ASTNode)
  | arr (location : String) (start stop : Nat) (items : List ASTNode)
  | prop (start stop : Nat) (key : String) (value : ASTNode)
  | scalar (start stop : Nat) (value : String)

/-- Start offset of an AST node. -/
def ASTNode.start : ASTNode → Nat
  | .obj s _ _ => s
  | .arr _ s _ _ => s
  | .prop s _ _ _ => s
  | .scalar s _ _ => s

/-- End offset of an AST node. -/
def ASTNode.stop : ASTNode → Nat
  | .obj _ e _ => e
  | .arr _ _ e _ => e
  | .prop _ e _ _ => e
  | .scalar _ e _ => e

/-- Modelled from the spec: the parser's `getValue()` capability, "a
`getValue()` producing a string/scalar read-out of the value sub-tree".
Scalars read out their own text; a property defers to its value node;
structured nodes read out as an opaque placeholder (no claim depends on
the structured read-out's exact text). -/
def ASTNode.getValue : ASTNode → String
  | .obj _ _ _ => "[object]"
  | .arr _ _ _ _ => "[array]"
  | .prop _ _ _ v => v.getValue
  | .scalar _ _ v => v

/-- The property list of an `Object` node (`ObjectASTNode.properties`);
empty for every other kind (the TypeScript read is `undefined` there and
every use is guarded by truthiness, which the empty list reproduces). -/
def ASTNode.objProperties : ASTNode → List ASTNode
  | .obj _ _ ps => ps
  | _ => []

/-- The key of a `Property` node (`PropertyASTNode.key.value`); the
empty string for other kinds (never consulted there). -/
def ASTNode.propKey : ASTNode → String
  | .prop _ _ k _ => k
  | _ => ""

/-- The value sub-node of a `Property` node; the node itself for other
kinds (never consulted there). -/
def ASTNode.propValue : ASTNode → ASTNode
  | .prop _ _ _ v => v
  | n => n

/-- Whether a node is an `Object` node. -/
def ASTNode.isObj : ASTNode → Bool
  | .obj _ _ _ => true
  | _ => false

/-- A single parsed document: its root AST node (`jsonDocument.root`). -/
structure JSONDocument where
  root : ASTNode

/-- The parsed YAML file: zero or more top-level documents. -/
structure YAMLDocument where
  documents : List JSONDocument

/-- The recognized property keys of `getObjectTree`
(`stage`, `task`, `script`, `job`, `deployment`). -/
def recognizedKeys : List String := ["stage", "task", "script", "job", "deployment"]

/-- The recognized array locations of `getObjectTree`
(`stages`, `steps`, `jobs`). -/
def recognizedLocations : List String := ["stages", "steps", "jobs"]

mutual

/-- Pass 1 of `getObjectTree`, restructured from the mutable
`nodeMap`/`tempId` bookkeeping into context passing.  `anc` is the key
of the nearest strict ancestor that was entered into the node map (the
ancestor walk over `tempId`s), `objSpan` the span of the nearest strict
`Object` ancestor (the `parentObject2` walk).  The result is the list of
created outline nodes whose nearest map-recorded ancestor is the context
ancestor, in visit (preorder) order; nodes created deeper are already
attached as their children. -/
def visitNode (doc : TextDocument) (anc : Option String) (objSpan : Option (Nat × Nat)) :
    ASTNode → List YamlObjectNode
  | .prop s e k v =>
    if k ∈ recognizedKeys then
      if anc = some "task" then
        visitNode doc anc objSpan v
      else
        let span := objSpan.getD (s, e)
        [.mk k (some v.getValue) (visitNode doc (some k) objSpan v)
          (doc.positionAt span.1) (doc.positionAt span.2) false]
    else
      visitNode doc anc objSpan v
  | .obj s e props => visitList doc anc (some (s, e)) props
  | .arr loc s e items =>
    if loc ∈ recognizedLocations then
      [.mk loc none (visitList doc (some loc) objSpan items)
        (doc.positionAt s) (doc.positionAt e) true]
    else
      visitList doc anc objSpan items
  | .scalar _ _ _ => []

/-- Pass 1 over a list of sibling AST nodes, concatenating in order. -/
def visitList (doc : TextDocument) (anc : Option String) (objSpan : Option (Nat × Nat)) :
    List ASTNode → List YamlObjectNode
  | [] => []
  | n :: ns => visitNode doc anc objSpan n ++ visitList doc anc objSpan ns

end

/-- The scan loop of `_flattenArrays` over a child list, translated from
the index loop with in-place mutation.  The pending pair holds the
element at position `i - 1` in its current (possibly already merged)
state together with whether that element was kept; mutation of
`children[i-1]` is modelled by updating the pending element before it is
emitted, and a merge into a dropped wrapper updates a pending element
that is never emitted (its children are lost), exactly as in the source. -/
def flattenLoop : Option (YamlObjectNode × Bool) → List YamlObjectNode → List YamlObjectNode
  | none, [] => []
  | some (p, kept), [] => if kept then [p] else []
  | none, c :: rest => flattenLoop (some (c, true)) rest
  | some (p, kept), c :: rest =>
    if c.isArray then
      (if kept then [p.withChildren (p.children ++ c.children)] else []) ++
        flattenLoop (some (c, false)) rest
    else
      (if kept then [p] else []) ++ flattenLoop (some (c, true)) rest

/-- One application of the child-rewriting step of `_flattenArrays`:
the lone-array-child elision, otherwise the scan loop. -/
def flattenStep (cs : List YamlObjectNode) : List YamlObjectNode :=
  match cs with
  | [c] => if c.isArray then c.children else [c]
  | _ => flattenLoop none cs

mutual

/-- `_flattenArrays`: post-order — children are flattened first, then
the node's own child list is rewritten by `flattenStep`. -/
def flattenArrays : YamlObjectNode → YamlObjectNode
  | .mk k v cs s e a => .mk k v (flattenStep (flattenList cs)) s e a

/-- `_flattenArrays` mapped over a child list. -/
def flattenList : List YamlObjectNode → List YamlObjectNode
  | [] => []
  | c :: cs => flattenArrays c :: flattenList cs

end

/-- `getObjectTree`.  With zero parsed documents the source sets
`jsonDocument = null` and then unconditionally dereferences
`jsonDocument.root`, throwing a `TypeError`; that thrown outcome is
`none`.  Otherwise the synthetic root (key and value both the literal
string `root`) collects the pass-1 forest and the tree is flattened. -/
def getObjectTree (document : TextDocument) (yamlDocument : YAMLDocument) :
    Option YamlObjectNode :=
  match yamlDocument.documents with
  | [] => none
  | jd :: _ =>
    let root : YamlObjectNode :=
      .mk "root" (some "root") (visitNode document none none jd.root)
        (document.positionAt jd.root.start) (document.positionAt jd.root.stop) false
    some (flattenArrays root)

mutual

/-- The collecting traversal of `findNodes`, one AST node.  `parentSpan`
is the span of the node's parent (`node.parent`), `none` at the root.
A match is pushed with `document.positionAt(node.parent.start/end)`;
when `document` is absent (the `!document` guard of the source resolves
an empty result but is missing its `return`, so execution continues) or
the matching node has no parent, that push dereferences `null` and
throws, modelled as `none`. -/
def collectNode (document : Option TextDocument) (key : String)
    (parentSpan : Option (Nat × Nat)) : ASTNode → Option (List YamlNodeInfo)
  | .prop s e k v => do
    let here ←
      if k = key then
        match document, parentSpan with
        | some d, some (ps, pe) =>
          some [⟨d.positionAt ps, d.positionAt pe, k, v.getValue⟩]
        | _, _ => none
      else
        some []
    let rest ← collectNode document key (some (s, e)) v
    some (here ++ rest)
  | .obj s e props => collectList document key (some (s, e)) props
  | .arr _ s e items => collectList document key (some (s, e)) items
  | .scalar _ _ _ => some []

/-- The collecting traversal of `findNodes` over sibling nodes. -/
def collectList (document : Option TextDocument) (key : String)
    (parentSpan : Option (Nat × Nat)) : List ASTNode → Option (List YamlNodeInfo)
  | [] => some []
  | n :: ns => do
    let here ← collectNode document key parentSpan n
    let rest ← collectList document key parentSpan ns
    some (here ++ rest)

end

/-- `findNodes`.  The `!document` guard resolves `[]` without returning
it, so a missing document only surfaces when a matching property tries
to read positions through it (`none` = thrown `TypeError`); an empty
document list returns the empty sequence. -/
def findNodes (document : Option TextDocument) (yamlDocument : YAMLDocument)
    (key : String) : Option (List YamlNodeInfo) :=
  match yamlDocument.documents with
  | [] => some []
  | jd :: _ => collectNode document key none jd.root

/-- One assignment `valueMap[p.key.value] = p.value.getValue()` on the
insertion-ordered map: an existing binding is overwritten in place,
a new key is appended. -/
def insertValue (m : List (String × String)) (k v : String) : List (String × String) :=
  if m.any (fun q => q.1 = k) then
    m.map (fun q => if q.1 = k then (k, v) else q)
  else
    m ++ [(k, v)]

/-- The `forEach` of `getNodePropertyValues` building the value map. -/
def buildValueMap (ps : List ASTNode) : List (String × String) :=
  ps.foldl (fun m p => insertValue m p.propKey p.propValue.getValue) []

/-- Reading a key back out of the modelled value map. -/
def lookupValue (m : List (String × String)) (k : String) : Option String :=
  (m.find? (fun q => q.1 = k)).map (fun q => q.2)

mutual

/-- Modelled from the spec: `getNodeFromOffset` of the external parser
followed by the upward walk to the nearest `Object` node — it "locates
the AST node covering that offset, then walks upward through parents
until reaching the nearest `Object`-kind node".  Equivalently, descend
along the containment chain and return the deepest `Object` on it. -/
def nearestObjectAt (offset : Nat) : ASTNode → Option ASTNode
  | .obj s e props =>
    if s ≤ offset ∧ offset ≤ e then
      match nearestObjectInList offset props with
      | some o => some o
      | none => some (.obj s e props)
    else none
  | .arr _ s e items =>
    if s ≤ offset ∧ offset ≤ e then nearestObjectInList offset items else none
  | .prop s e _ v =>
    if s ≤ offset ∧ offset ≤ e then nearestObjectAt offset v else none
  | .scalar _ _ _ => none

/-- Modelled from the spec: first child whose subtree yields an object
covering the offset. -/
def nearestObjectInList (offset : Nat) : List ASTNode → Option ASTNode
  | [] => none
  | n :: ns =>
    match nearestObjectAt offset n with
    | some o => some o
    | none => nearestObjectInList offset ns

end

/-- `getNodePropertyValues`.  Absent document or absent top-level
document yield the absent map; likewise when no enclosing object exists
or the object's properties do not contain exactly one property named
`propertyName`.  Otherwise the value map is built from the match's value
read as an object (`.properties` of a non-object value is `undefined`,
guarded by the `&&` before the `forEach`, which the empty list
reproduces). -/
def getNodePropertyValues (document : Option TextDocument) (yamlDocument : YAMLDocument)
    (position : Position) (propertyName : String) : YamlNodePropertyValues :=
  match document with
  | none => ⟨none⟩
  | some doc =>
    let offset := doc.offsetAt position
    match yamlDocument.documents with
    | [] => ⟨none⟩
    | jd :: _ =>
      match nearestObjectAt offset jd.root with
      | none => ⟨none⟩
      | some node =>
        let propertiesArray := node.objProperties.filter (fun p => p.propKey = propertyName)
        if propertiesArray.length ≠ 1 then ⟨none⟩
        else
          match propertiesArray with
          | [p] => ⟨some (buildValueMap p.propValue.objProperties)⟩
          | _ => ⟨none⟩

mutual

/-- The `tempId` side effect of `getObjectTree`, threaded explicitly:
`cnt` is the `currentId` counter, `path` the identity of the current AST
node (its child-index path from the root).  The result is the next
counter value together with the list of tag writes
`(node as any).tempId = nodeId`, in the order they are executed.  The
source contains no statement removing a tag, so the AST's tag state when
the call returns is exactly this write list. -/
def tagVisit (anc : Option String) (cnt : Nat) (path : List Nat) :
    ASTNode → Nat × List (List Nat × Nat)
  | .prop _ _ k v =>
    if k ∈ recognizedKeys then
      if anc = some "task" then
        tagVisit anc cnt (path ++ [0]) v
      else
        let rest := tagVisit (some k) (cnt + 1) (path ++ [0]) v
        (rest.1, (path, cnt) :: rest.2)
    else
      tagVisit anc cnt (path ++ [0]) v
  | .obj _ _ props => tagVisitList anc cnt path 0 props
  | .arr loc _ _ items =>
    if loc ∈ recognizedLocations then
      let rest := tagVisitList (some loc) (cnt + 1) path 0 items
      (rest.1, (path, cnt) :: rest.2)
    else
      tagVisitList anc cnt path 0 items
  | .scalar _ _ _ => (cnt, [])

/-- Tag writes over sibling lists; `i` is the child index. -/
def tagVisitList (anc : Option String) (cnt : Nat) (path : List Nat) (i : Nat) :
    List ASTNode → Nat × List (List Nat × Nat)
  | [] => (cnt, [])
  | n :: ns =>
    let first := tagVisit anc cnt (path ++ [i]) n
    let rest := tagVisitList anc first.1 path (i + 1) ns
    (rest.1, first.2 ++ rest.2)

end

/-- The `tempId` tags remaining on the AST after a `getObjectTree` call:
every write of the build, none removed. -/
def tagsAfterBuild (yamlDocument : YAMLDocument) : List (List Nat × Nat) :=
  match yamlDocument.documents with
  | [] => []
  | jd :: _ => (tagVisit none 0 [] jd.root).2

mutual

/-- Structural equality test for outline trees (`DecidableEq` cannot be
derived for the nested inductive). -/
def beqNode : YamlObjectNode → YamlObjectNode → Bool
  | .mk k v cs s e a, .mk k' v' cs' s' e' a' =>
    k = k' && v = v' && s = s' && e = e' && a = a' && beqForest cs cs'

/-- Structural equality test for lists of outline trees. -/
def beqForest : List YamlObjectNode → List YamlObjectNode → Bool
  | [], [] => true
  | t :: ts, t' :: ts' => beqNode t t' && beqForest ts ts'
  | _, _ => false

end

mutual

/-- Does some node of the tree (the root included) satisfy `p`? -/
def anyTree (p : YamlObjectNode → Bool) : YamlObjectNode → Bool
  | .mk k v cs s e a => p (.mk k v cs s e a) || anyForest p cs

/-- Does some node of some tree of the forest satisfy `p`? -/
def anyForest (p : YamlObjectNode → Bool) : List YamlObjectNode → Bool
  | [] => false
  | t :: ts => anyTree p t || anyForest p ts

end

mutual

/-- Does every node of the tree (the root included) satisfy `p`? -/
def allTree (p : YamlObjectNode → Bool) : YamlObjectNode → Bool
  | .mk k v cs s e a => p (.mk k v cs s e a) && allForest p cs

/-- Does every node of every tree of the forest satisfy `p`? -/
def allForest (p : YamlObjectNode → Bool) : List YamlObjectNode → Bool
  | [] => true
  | t :: ts => allTree p t && allForest p ts

end

/-- A tree with no array-wrapper node anywhere. -/
def noWrappers (t : YamlObjectNode) : Bool :=
  allTree (fun n => !n.isArray) t

/-- Written from the spec's words for the flatten pass (§4.1): the first
child is kept, and "every subsequent child that is a wrapper has its
children appended onto the previous KEPT child's children, and the
wrapper itself is dropped".  `prev` is the previous kept child. -/
def mergeIntoPrevKept (prev : YamlObjectNode) : List YamlObjectNode → List YamlObjectNode
  | [] => [prev]
  | c :: rest =>
    if c.isArray then
      mergeIntoPrevKept (prev.withChildren (prev.children ++ c.children)) rest
    else
      prev :: mergeIntoPrevKept c rest

/-- No two adjacent wrappers in a list (used on the part of a child list
after the first child: there a dropped wrapper immediately followed by
another wrapper is the configuration on which the code loses children). -/
def noAdjacentWrappers : List YamlObjectNode → Bool
  | a :: b :: rest => (!(a.isArray && b.isArray)) && noAdjacentWrappers (b :: rest)
  | _ => true

/-- Node-local value discipline: wrappers carry no value, all other
created nodes carry one. -/
def nodeValueOk (n : YamlObjectNode) : Bool :=
  if n.isArray then n.value.isNone else n.value.isSome

/-- Node-local form of the task-leaf rule: a node keyed `task` has only
array wrappers as children. -/
def taskChildrenAreWrappers (n : YamlObjectNode) : Bool :=
  if n.key = "task" then n.children.all (fun c => c.isArray) else true

/-- A concrete document collaborator: offset `o` is position `(0, o)`. -/
def docId : TextDocument := ⟨fun o => ⟨0, o⟩, fun p => p.character⟩

/-- A document whose outline, once flattened, still holds a wrapper at a
non-first sibling position: `job` containing a nested `job` (with a
`script`) followed by a `steps` array holding a `jobs` array and a
`script`. -/
def astC2 : ASTNode :=
  .obj 0 100 [
    .prop 1 99 "job" (.obj 2 98 [
      .prop 3 50 "job" (.obj 4 49 [
        .prop 5 10 "script" (.scalar 8 10 "q")]),
      .prop 51 97 "steps" (.arr "steps" 55 97 [
        .obj 56 96 [
          .prop 57 70 "jobs" (.arr "jobs" 60 70 []),
          .prop 71 95 "script" (.scalar 80 95 "y")]])])]

/-- The parsed file around `astC2`. -/
def ydC2 : YAMLDocument := ⟨[⟨astC2⟩]⟩

/-- A `task` whose value holds a `steps` array containing a `script`
property. -/
def astC3 : ASTNode :=
  .obj 0 50 [
    .prop 1 49 "task" (.obj 2 48 [
      .prop 3 47 "steps" (.arr "steps" 10 47 [
        .obj 11 46 [
          .prop 12 45 "script" (.scalar 20 45 "echo")]])])]

/-- The parsed file around `astC3`. -/
def ydC3 : YAMLDocument := ⟨[⟨astC3⟩]⟩

/-- A non-wrapper leaf node. -/
def leafX : YamlObjectNode := .mk "script" (some "x") [] ⟨0, 0⟩ ⟨0, 1⟩ false

/-- Another non-wrapper leaf node. -/
def leafY : YamlObjectNode := .mk "script" (some "y") [] ⟨0, 0⟩ ⟨0, 2⟩ false

/-- A non-wrapper first child. -/
def pC4 : YamlObjectNode := .mk "script" (some "s") [] ⟨0, 0⟩ ⟨0, 3⟩ false

/-- A wrapper with one child. -/
def w1C4 : YamlObjectNode := .mk "steps" none [leafX] ⟨0, 0⟩ ⟨0, 4⟩ true

/-- A second wrapper with one child. -/
def w2C4 : YamlObjectNode := .mk "jobs" none [leafY] ⟨0, 0⟩ ⟨0, 5⟩ true

/-- A node whose children are a kept child followed by two adjacent
wrappers. -/
def nodeC4 : YamlObjectNode := .mk "job" (some "j") [pC4, w1C4, w2C4] ⟨0, 0⟩ ⟨0, 6⟩ false

/-- A lone wrapper child. -/
def wC5 : YamlObjectNode := .mk "steps" none [leafX] ⟨0, 0⟩ ⟨0, 7⟩ true

/-- A node whose only child is the wrapper `wC5`. -/
def nC5 : YamlObjectNode := .mk "job" (some "1") [wC5] ⟨0, 0⟩ ⟨0, 8⟩ false

/-- A document containing one `job` property. -/
def astC6 : ASTNode := .obj 0 10 [.prop 1 9 "job" (.scalar 5 9 "x")]

/-- The parsed file around `astC6`. -/
def ydC6 : YAMLDocument := ⟨[⟨astC6⟩]⟩

/-- A document whose root object has no properties. -/
def astC7 : ASTNode := .obj 0 10 []

/-- The parsed file around `astC7`. -/
def ydC7 : YAMLDocument := ⟨[⟨astC7⟩]⟩

/-- A document containing one `script` property. -/
def astC8 : ASTNode := .obj 0 10 [.prop 1 9 "script" (.scalar 4 9 "x")]

/-- The parsed file around `astC8`. -/
def ydC8 : YAMLDocument := ⟨[⟨astC8⟩]⟩

/-- The outline tree of `ydC8`. -/
def rootC8 : YamlObjectNode :=
  .mk "root" (some "root")
    [.mk "script" (some "x") [] ⟨0, 0⟩ ⟨0, 10⟩ false] ⟨0, 0⟩ ⟨0, 10⟩ false

/-- A document containing one `script` property (for the tag model). -/
def astC9 : ASTNode := .obj 0 10 [.prop 1 9 "script" (.scalar 4 9 "x")]

/-- The parsed file around `astC9`. -/
def ydC9 : YAMLDocument := ⟨[⟨astC9⟩]⟩

/-- The properties of the value object below: keys `x`, `x`, `y`. -/
def propsC10 : List ASTNode :=
  [.prop 6 9 "x" (.scalar 8 9 "1"),
   .prop 10 13 "x" (.scalar 12 13 "2"),
   .prop 14 18 "y" (.scalar 16 18 "3")]

/-- The value object of the `inputs` property below. -/
def valObjC10 : ASTNode := .obj 5 19 propsC10

/-- A document whose root object carries one `inputs` property whose
value object repeats the key `x`. -/
def astC10 : ASTNode := .obj 0 20 [.prop 1 19 "inputs" valObjC10]

/-- The parsed file around `astC10`. -/
def ydC10 : YAMLDocument := ⟨[⟨astC10⟩]⟩

mutual

/-- `beqNode` is reflexive. -/
theorem beqNode_refl : ∀ t, beqNode t t = true
  | .mk k v cs s e a => by
    simp [beqNode, beqForest_refl cs]

/-- `beqForest` is reflexive. -/
theorem beqForest_refl : ∀ ts, beqForest ts ts = true
  | [] => rfl
  | t :: ts => by simp [beqForest, beqNode_refl t, beqForest_refl ts]

end

/-- A failed `beqNode` test separates trees. -/
theorem ne_of_beqNode_false {a b : YamlObjectNode} (h : beqNode a b = false) : a ≠ b := by
  intro he
  subst he
  rw [beqNode_refl a] at h
  exact Bool.noConfusion h

/-- A failed `beqForest` test separates forests. -/
theorem ne_of_beqForest_false {as bs : List YamlObjectNode} (h : beqForest as bs = false) :
    as ≠ bs := by
  intro he
  subst he
  rw [beqForest_refl as] at h
  exact Bool.noConfusion h

/-- `withChildren` installs exactly the given children. -/
theorem withChildren_children (n : YamlObjectNode) (cs : List YamlObjectNode) :
    (n.withChildren cs).children = cs := by cases n; rfl

/-- `withChildren` keeps `isArray`. -/
theorem withChildren_isArray (n : YamlObjectNode) (cs : List YamlObjectNode) :
    (n.withChildren cs).isArray = n.isArray := by cases n; rfl

/-- `flattenArrays` is `withChildren` of the flattened child list. -/
theorem flattenArrays_eq_withChildren (n : YamlObjectNode) :
    flattenArrays n = n.withChildren (flattenStep (flattenList n.children)) := by
  cases n; rfl

/-- `flattenArrays` keeps `isArray`. -/
theorem flattenArrays_isArray (n : YamlObjectNode) :
    (flattenArrays n).isArray = n.isArray := by cases n; rfl

/-- `flattenArrays` keeps `key`. -/
theorem flattenArrays_key (n : YamlObjectNode) :
    (flattenArrays n).key = n.key := by cases n; rfl

/-- `flattenArrays` keeps `value`. -/
theorem flattenArrays_value (n : YamlObjectNode) :
    (flattenArrays n).value = n.value := by cases n; rfl

/-- `flattenArrays` rewrites the children by `flattenStep` after the
recursive pass. -/
theorem flattenArrays_children (n : YamlObjectNode) :
    (flattenArrays n).children = flattenStep (flattenList n.children) := by cases n; rfl

/-- Unfolding `allTree` through the projections. -/
theorem allTree_def (p : YamlObjectNode → Bool) (t : YamlObjectNode) :
    allTree p t = (p t && allForest p t.children) := by cases t; rfl

/-- `allForest` distributes over append. -/
theorem allForest_append (p : YamlObjectNode → Bool) (as bs : List YamlObjectNode) :
    allForest p (as ++ bs) = (allForest p as && allForest p bs) := by
  induction as with
  | nil => simp [allForest]
  | cons t ts ih => simp [allForest, ih, Bool.and_assoc]

/-- A member of an `allForest`-true forest is `allTree`-true. -/
theorem allForest_mem {p : YamlObjectNode → Bool} {ts : List YamlObjectNode}
    {t : YamlObjectNode} (h : allForest p ts = true) (ht : t ∈ ts) : allTree p t = true := by
  induction ts with
  | nil => cases ht
  | cons u us ih =>
    rw [show allForest p (u :: us) = (allTree p u && allForest p us) from rfl,
      Bool.and_eq_true] at h
    rcases List.mem_cons.mp ht with h1 | h1
    · exact h1 ▸ h.1
    · exact ih h.2 h1

/-- `x` occurs somewhere in the tree `t` (as `t` itself or below it). -/
inductive OccursIn : YamlObjectNode → YamlObjectNode → Prop where
  | here (t : YamlObjectNode) : OccursIn t t
  | deeper (x c t : YamlObjectNode) (hc : c ∈ t.children) (h : OccursIn x c) : OccursIn x t

/-- A child is smaller than its tree. -/
theorem sizeOf_lt_of_mem_children {c t : YamlObjectNode} (h : c ∈ t.children) :
    sizeOf c < sizeOf t := by
  cases t with
  | mk k v cs s e a =>
    simp only [YamlObjectNode.children] at h
    have h1 := List.sizeOf_lt_of_mem h
    simp only [YamlObjectNode.mk.sizeOf_spec]
    omega

/-- Occurrence never increases size. -/
theorem sizeOf_le_of_occursIn {x t : YamlObjectNode} (h : OccursIn x t) :
    sizeOf x ≤ sizeOf t := by
  induction h with
  | here => exact Nat.le_refl _
  | deeper x c hc _ ih =>
    exact Nat.le_of_lt (Nat.lt_of_le_of_lt ih (sizeOf_lt_of_mem_children hc))

/-- C5: in the flatten pass, a node whose single child is an array
wrapper has that wrapper elided: the node's children become the
(recursively flattened) wrapper's children, and the wrapper itself
occurs nowhere in the resulting child forest. -/
theorem flatten_elides_lone_wrapper (n w : YamlObjectNode)
    (h1 : n.children = [w]) (h2 : w.isArray = true) :
    (flattenArrays n).children = (flattenArrays w).children ∧
    ∀ c ∈ (flattenArrays n).children, ¬ OccursIn (flattenArrays w) c := by
  have hstep : (flattenArrays n).children = (flattenArrays w).children := by
    rw [flattenArrays_children, h1]
    show flattenStep [flattenArrays w] = _
    rw [show flattenStep [flattenArrays w] =
        if (flattenArrays w).isArray then (flattenArrays w).children
        else [flattenArrays w] from rfl]
    rw [flattenArrays_isArray, h2]
    simp
  refine ⟨hstep, ?_⟩
  intro c hc hocc
  rw [hstep] at hc
  have hlt := sizeOf_lt_of_mem_children hc
  have hle := sizeOf_le_of_occursIn hocc
  omega

/-- Witness for C5 at a concrete node and wrapper. -/
theorem flatten_elides_lone_wrapper_witness :
    (flattenArrays nC5).children = (flattenArrays wC5).children :=
  (flatten_elides_lone_wrapper nC5 wC5 rfl rfl).1

/-- On a wrapper-free child list the scan loop keeps everything. -/
theorem flattenLoop_keeps_nonarrays :
    ∀ (cs : List YamlObjectNode) (p : YamlObjectNode),
      (∀ c ∈ cs, c.isArray = false) → flattenLoop (some (p, true)) cs = p :: cs := by
  intro cs
  induction cs with
  | nil => intro p _; rfl
  | cons c rest ih =>
    intro p h
    have hc : c.isArray = false := h c (List.mem_cons_self c rest)
    simp only [flattenLoop, hc, Bool.false_eq_true, if_false, if_true]
    rw [ih c fun x hx => h x (List.mem_cons_of_mem c hx)]
    rfl

/-- On a wrapper-free child list the flatten step is the identity. -/
theorem flattenStep_no_wrappers (cs : List YamlObjectNode)
    (h : ∀ c ∈ cs, c.isArray = false) : flattenStep cs = cs := by
  match cs with
  | [] => rfl
  | [c] =>
    have hc : c.isArray = false := h c (List.mem_cons_self c [])
    simp [flattenStep, hc]
  | c :: d :: rest =>
    show flattenLoop none (c :: d :: rest) = c :: d :: rest
    rw [show flattenLoop none (c :: d :: rest) =
      flattenLoop (some (c, true)) (d :: rest) from rfl]
    rw [flattenLoop_keeps_nonarrays (d :: rest) c
      fun x hx => h x (List.mem_cons_of_mem c hx)]

mutual

/-- On a wrapper-free tree `_flattenArrays` is the identity. -/
theorem flattenArrays_id (t : YamlObjectNode) (h : noWrappers t = true) :
    flattenArrays t = t := by
  cases t with
  | mk k v cs s e a =>
    rw [noWrappers, allTree_def, Bool.and_eq_true] at h
    rw [show flattenArrays (.mk k v cs s e a) =
      .mk k v (flattenStep (flattenList cs)) s e a from rfl]
    rw [flattenList_id cs h.2]
    rw [flattenStep_no_wrappers cs fun c hc => by
      have := allForest_mem h.2 hc
      rw [allTree_def, Bool.and_eq_true] at this
      simpa using this.1]

/-- On a wrapper-free forest the recursive pass is the identity. -/
theorem flattenList_id (ts : List YamlObjectNode)
    (h : allForest (fun n => !n.isArray) ts = true) : flattenList ts = ts := by
  cases ts with
  | nil => rfl
  | cons t rest =>
    rw [show allForest (fun n => !n.isArray) (t :: rest) =
      (allTree (fun n => !n.isArray) t && allForest (fun n => !n.isArray) rest) from rfl,
      Bool.and_eq_true] at h
    rw [show flattenList (t :: rest) = flattenArrays t :: flattenList rest from rfl]
    rw [flattenArrays_id t h.1, flattenList_id rest h.2]

end

/-- C2 (amended): on trees without wrapper nodes the flatten pass is the
identity, hence idempotent; in general it is not idempotent (see the
counterexample, where a merge leaves a wrapper at a non-first sibling
position that a second pass would merge further). -/
theorem flatten_idempotent_on_wrapper_free (t : YamlObjectNode) (h : noWrappers t = true) :
    flattenArrays t = t ∧ flattenArrays (flattenArrays t) = flattenArrays t := by
  have h1 := flattenArrays_id t h
  exact ⟨h1, by rw [h1]; exact h1⟩

/-- Witness for the amended C2 at a concrete wrapper-free tree. -/
theorem flatten_idempotent_on_wrapper_free_witness :
    flattenArrays leafX = leafX ∧ flattenArrays (flattenArrays leafX) = flattenArrays leafX :=
  flatten_idempotent_on_wrapper_free leafX rfl

/-- C2 (counterexample): on the outline of `ydC2` — a tree produced by
pass 1 and one flatten pass — flattening again changes the tree, and the
once-flattened tree holds a wrapper at a non-first sibling position. -/
theorem flatten_not_idempotent_on_outline :
    (getObjectTree docId ydC2).map flattenArrays ≠ getObjectTree docId ydC2 ∧
    (getObjectTree docId ydC2).map
      (anyTree (fun n => (n.children.drop 1).any (fun c => c.isArray))) = some true := by
  refine ⟨?_, rfl⟩
  intro h
  have hb : (getObjectTree docId ydC2).map (fun t => beqNode (flattenArrays t) t) =
      some false := rfl
  cases he : getObjectTree docId ydC2 with
  | none => rw [he] at hb; exact Option.noConfusion hb
  | some t =>
    rw [he] at h hb
    simp only [Option.map_some'] at h hb
    have ht : flattenArrays t = t := Option.some.inj h
    have hf : beqNode (flattenArrays t) t = false := Option.some.inj hb
    rw [ht, beqNode_refl] at hf
    exact Bool.noConfusion hf

mutual

/-- Below a `task` ancestor, pass 1 creates only array wrappers at the
attachment level (recognized properties there are rejected). -/
theorem visitNode_under_task (d : TextDocument) (os : Option (Nat × Nat)) (t : ASTNode) :
    ∀ x ∈ visitNode d (some "task") os t, x.isArray = true := by
  cases t with
  | prop s e k v =>
    intro x hx
    by_cases hk : k ∈ recognizedKeys
    · simp only [visitNode, hk, if_true, if_pos rfl] at hx
      exact visitNode_under_task d os v x hx
    · simp only [visitNode, hk, if_false] at hx
      exact visitNode_under_task d os v x hx
  | obj s e props =>
    intro x hx
    exact visitList_under_task d (some (s, e)) props x hx
  | arr loc s e items =>
    intro x hx
    by_cases hl : loc ∈ recognizedLocations
    · simp only [visitNode, hl, if_true, List.mem_singleton] at hx
      rw [hx]
      rfl
    · simp only [visitNode, hl, if_false] at hx
      exact visitList_under_task d os items x hx
  | scalar s e v => intro x hx; cases hx

/-- List version of `visitNode_under_task`. -/
theorem visitList_under_task (d : TextDocument) (os : Option (Nat × Nat))
    (ts : List ASTNode) : ∀ x ∈ visitList d (some "task") os ts, x.isArray = true := by
  cases ts with
  | nil => intro x hx; cases hx
  | cons n ns =>
    intro x hx
    rcases List.mem_append.mp hx with h1 | h1
    · exact visitNode_under_task d os n x h1
    · exact visitList_under_task d os ns x h1

end

/-- Unfolding `taskChildrenAreWrappers` on a constructor. -/
theorem taskChildrenAreWrappers_mk (k : String) (v : Option String)
    (cs : List YamlObjectNode) (s e : Position) (a : Bool) :
    taskChildrenAreWrappers (.mk k v cs s e a) =
      (if k = "task" then cs.all (fun c => c.isArray) else true) := rfl

mutual

/-- Every node of the pass-1 forest keyed `task` has only array wrappers
as children. -/
theorem visitNode_taskChildren (d : TextDocument) (anc : Option String)
    (os : Option (Nat × Nat)) (t : ASTNode) :
    allForest taskChildrenAreWrappers (visitNode d anc os t) = true := by
  cases t with
  | prop s e k v =>
    by_cases hk : k ∈ recognizedKeys
    · by_cases ha : anc = some "task"
      · simp only [visitNode, hk, if_true, ha, if_pos rfl]
        exact visitNode_taskChildren d (some "task") os v
      · simp only [visitNode, hk, if_true, if_neg ha]
        rw [show allForest taskChildrenAreWrappers
          [YamlObjectNode.mk k (some v.getValue) (visitNode d (some k) os v)
            (d.positionAt (os.getD (s, e)).1) (d.positionAt (os.getD (s, e)).2) false] =
          (allTree taskChildrenAreWrappers
            (.mk k (some v.getValue) (visitNode d (some k) os v)
              (d.positionAt (os.getD (s, e)).1) (d.positionAt (os.getD (s, e)).2) false) &&
            true) from rfl]
        rw [allTree_def, Bool.and_true, Bool.and_eq_true]
        constructor
        · rw [taskChildrenAreWrappers_mk]
          by_cases hkt : k = "task"
          · rw [if_pos hkt, List.all_eq_true]
            intro c hc
            subst hkt
            exact visitNode_under_task d os v c hc
          · rw [if_neg hkt]
        · exact visitNode_taskChildren d (some k) os v
    · simp only [visitNode, hk, if_false]
      exact visitNode_taskChildren d anc os v
  | obj s e props => exact visitList_taskChildren d anc (some (s, e)) props
  | arr loc s e items =>
    by_cases hl : loc ∈ recognizedLocations
    · simp only [visitNode, hl, if_true]
      rw [show allForest taskChildrenAreWrappers
        [YamlObjectNode.mk loc none (visitList d (some loc) os items)
          (d.positionAt s) (d.positionAt e) true] =
        (allTree taskChildrenAreWrappers
          (.mk loc none (visitList d (some loc) os items)
            (d.positionAt s) (d.positionAt e) true) && true) from rfl]
      rw [allTree_def, Bool.and_true, Bool.and_eq_true]
      constructor
      · rw [taskChildrenAreWrappers_mk]
        have : loc ≠ "task" := by
          intro hcontra
          subst hcontra
          simp [recognizedLocations] at hl
        rw [if_neg this]
      · exact visitList_taskChildren d (some loc) os items
    · simp only [visitNode, hl, if_false]
      exact visitList_taskChildren d anc os items
  | scalar s e v => rfl

/-- List version of `visitNode_taskChildren`. -/
theorem visitList_taskChildren (d : TextDocument) (anc : Option String)
    (os : Option (Nat × Nat)) (ts : List ASTNode) :
    allForest taskChildrenAreWrappers (visitList d anc os ts) = true := by
  cases ts with
  | nil => rfl
  | cons n ns =>
    rw [show visitList d anc os (n :: ns) =
      visitNode d anc os n ++ visitList d anc os ns from rfl]
    rw [allForest_append, Bool.and_eq_true]
    exact ⟨visitNode_taskChildren d anc os n, visitList_taskChildren d anc os ns⟩

end

/-- C3 (amended): the task-leaf rule holds only against the nearest
identity-map ancestor — a recognized property whose nearest recorded
ancestor is a `task` node contributes no node, so in the pass-1
provisional forest every child of a `task`-keyed node is an array
wrapper; recognized properties separated from the task by a recognized
array do surface (see the counterexample). -/
theorem pass1_task_children_are_wrappers (d : TextDocument) (anc : Option String)
    (os : Option (Nat × Nat)) (t : ASTNode) :
    allForest taskChildrenAreWrappers (visitNode d anc os t) = true :=
  visitNode_taskChildren d anc os t

/-- C3 (counterexample): in `ydC3` the `script` property is a descendant
of the `task` property, yet the final tree returned by `getObjectTree`
holds a `script` node — directly below the `task` node, the intervening
`steps` wrapper having been flattened away. -/
theorem task_descendant_in_final_tree :
    getObjectTree docId ydC3 =
      some (.mk "root" (some "root")
        [.mk "task" (some "[object]")
          [.mk "script" (some "echo") [] ⟨0, 11⟩ ⟨0, 46⟩ false] ⟨0, 0⟩ ⟨0, 50⟩ false]
        ⟨0, 0⟩ ⟨0, 50⟩ false) ∧
    (getObjectTree docId ydC3).map
      (anyTree (fun n => n.key = "task" && anyForest (fun c => c.key = "script") n.children)) =
      some true :=
  ⟨rfl, rfl⟩

/-- Dropping the head preserves the no-adjacent-wrappers property. -/
theorem noAdjacentWrappers_tail {x : YamlObjectNode} {xs : List YamlObjectNode}
    (h : noAdjacentWrappers (x :: xs) = true) : noAdjacentWrappers xs = true := by
  cases xs with
  | nil => rfl
  | cons y ys =>
    rw [show noAdjacentWrappers (x :: y :: ys) =
      ((!(x.isArray && y.isArray)) && noAdjacentWrappers (y :: ys)) from rfl,
      Bool.and_eq_true] at h
    exact h.2

/-- On child lists without adjacent wrappers past the first position,
the scan loop agrees with the spec's previous-kept-child merge. -/
theorem flattenLoop_eq_mergeKept :
    ∀ (n : Nat) (rest : List YamlObjectNode), rest.length ≤ n →
      ∀ prev, noAdjacentWrappers rest = true →
        flattenLoop (some (prev, true)) rest = mergeIntoPrevKept prev rest := by
  intro n
  induction n with
  | zero =>
    intro rest hlen prev _
    have hnil : rest = [] := List.length_eq_zero.mp (Nat.le_zero.mp hlen)
    subst hnil
    rfl
  | succ n ih =>
    intro rest hlen prev hadj
    cases rest with
    | nil => rfl
    | cons c rest' =>
      cases hc : c.isArray with
      | false =>
        simp only [flattenLoop, mergeIntoPrevKept, hc, Bool.false_eq_true, if_false, if_true]
        rw [ih rest' (by simp at hlen; omega) c (noAdjacentWrappers_tail hadj)]
        rfl
      | true =>
        cases rest' with
        | nil => simp [flattenLoop, mergeIntoPrevKept, hc]
        | cons d rest'' =>
          have h1 : (!(c.isArray && d.isArray)) = true := by
            rw [show noAdjacentWrappers (c :: d :: rest'') =
              ((!(c.isArray && d.isArray)) && noAdjacentWrappers (d :: rest'')) from rfl,
              Bool.and_eq_true] at hadj
            exact hadj.1
          have hd : d.isArray = false := by simpa [hc] using h1
          have hadj'' : noAdjacentWrappers rest'' = true :=
            noAdjacentWrappers_tail (noAdjacentWrappers_tail hadj)
          simp only [flattenLoop, mergeIntoPrevKept, hc, hd, Bool.false_eq_true,
            if_false, if_true, List.nil_append, List.singleton_append]
          rw [ih rest'' (by simp at hlen; omega) d hadj'']

/-- C4 (amended): for a node with two or more children the flatten step
keeps the first child and appends every later wrapper's children onto
the immediately preceding child of the original order; when no two
wrappers are adjacent past the first position that preceding child is
exactly the previous kept child, matching the spec's description. -/
theorem flattenStep_merges_into_prev_kept (c0 : YamlObjectNode)
    (rest : List YamlObjectNode) (hne : rest ≠ [])
    (hadj : noAdjacentWrappers rest = true) :
    flattenStep (c0 :: rest) = mergeIntoPrevKept c0 rest := by
  cases rest with
  | nil => exact absurd rfl hne
  | cons r rs =>
    show flattenLoop none (c0 :: r :: rs) = _
    rw [show flattenLoop none (c0 :: r :: rs) =
      flattenLoop (some (c0, true)) (r :: rs) from rfl]
    exact flattenLoop_eq_mergeKept (r :: rs).length (r :: rs) (Nat.le_refl _) c0 hadj

/-- Witness for the amended C4 on a concrete two-child list. -/
theorem flattenStep_merges_into_prev_kept_witness :
    flattenStep [pC4, w1C4] = mergeIntoPrevKept pC4 [w1C4] :=
  flattenStep_merges_into_prev_kept pC4 [w1C4] (List.cons_ne_nil w1C4 []) rfl

/-- C4 (counterexample): with two adjacent wrappers after the first
child the code appends the second wrapper's children onto the first
(already dropped) wrapper, not onto the previous kept child, so the
flatten pass disagrees with the previous-kept-child description (the
second wrapper's children are lost). -/
theorem flatten_not_merge_into_prev_kept :
    (flattenArrays nodeC4).children ≠ mergeIntoPrevKept pC4 [w1C4, w2C4] :=
  ne_of_beqForest_false (by rfl)

/-- C1 (evaluation at the failing input): with zero parsed documents
`getObjectTree` dereferences the null `jsonDocument` (`none` = thrown
`TypeError`) while `findNodes` and `getNodePropertyValues` return their
defined empty results. -/
theorem empty_documents_evaluation :
    getObjectTree docId ⟨[]⟩ = none ∧
    findNodes (some docId) ⟨[]⟩ "job" = some [] ∧
    (getNodePropertyValues (some docId) ⟨[]⟩ ⟨0, 0⟩ "inputs").values = none :=
  ⟨rfl, rfl, rfl⟩

/-- C6 (evaluation at the failing input): with an absent document the
missing `return` lets `findNodes` continue; it crashes (`none`) as soon
as a matching property is pushed, and only returns the empty sequence
when nothing matches. -/
theorem findNodes_absent_document_evaluation :
    findNodes none ydC6 "job" = none ∧
    findNodes none ydC6 "stage" = some [] ∧
    findNodes (some docId) ydC6 "job" = some [⟨⟨0, 0⟩, ⟨0, 10⟩, "job", "x"⟩] :=
  ⟨rfl, rfl, rfl⟩

/-- A node-local predicate (one insensitive to the children) survives
the scan loop, whose only surgery is on children lists. -/
theorem allForest_flattenLoop {P : YamlObjectNode → Bool}
    (hP : ∀ n cs', P (n.withChildren cs') = P n) :
    ∀ (cs : List YamlObjectNode) (st : Option (YamlObjectNode × Bool)),
      (∀ q b, st = some (q, b) → allTree P q = true) →
      allForest P cs = true → allForest P (flattenLoop st cs) = true := by
  intro cs
  induction cs with
  | nil =>
    intro st hst h
    match st with
    | none => exact h
    | some (q, true) =>
      have hq := hst q true rfl
      show allForest P [q] = true
      rw [show allForest P [q] = (allTree P q && true) from rfl, hq]
      rfl
    | some (q, false) => rfl
  | cons c rest ih =>
    intro st hst h
    rw [show allForest P (c :: rest) = (allTree P c && allForest P rest) from rfl,
      Bool.and_eq_true] at h
    match st with
    | none =>
      rw [show flattenLoop none (c :: rest) = flattenLoop (some (c, true)) rest from rfl]
      exact ih (some (c, true)) (fun q b hqb => by cases hqb; exact h.1) h.2
    | some (p, kept) =>
      have hp : allTree P p = true := hst p kept rfl
      cases hc : c.isArray with
      | true =>
        simp only [flattenLoop, hc, if_true]
        rw [allForest_append, Bool.and_eq_true]
        constructor
        · cases kept with
          | false => rfl
          | true =>
            show allForest P [p.withChildren (p.children ++ c.children)] = true
            rw [show allForest P [p.withChildren (p.children ++ c.children)] =
              (allTree P (p.withChildren (p.children ++ c.children)) && true) from rfl,
              Bool.and_true, allTree_def, withChildren_children, hP,
              allForest_append, Bool.and_eq_true, Bool.and_eq_true]
            rw [allTree_def, Bool.and_eq_true] at hp
            have hc2 := h.1
            rw [allTree_def, Bool.and_eq_true] at hc2
            exact ⟨hp.1, hp.2, hc2.2⟩
        · exact ih (some (c, false)) (fun q b hqb => by cases hqb; exact h.1) h.2
      | false =>
        simp only [flattenLoop, hc, Bool.false_eq_true, if_false]
        rw [allForest_append, Bool.and_eq_true]
        constructor
        · cases kept with
          | false => rfl
          | true =>
            show allForest P [p] = true
            rw [show allForest P [p] = (allTree P p && true) from rfl, hp]
            rfl
        · exact ih (some (c, true)) (fun q b hqb => by cases hqb; exact h.1) h.2

/-- A node-local predicate survives the flatten step. -/
theorem allForest_flattenStep {P : YamlObjectNode → Bool}
    (hP : ∀ n cs', P (n.withChildren cs') = P n) (cs : List YamlObjectNode)
    (h : allForest P cs = true) : allForest P (flattenStep cs) = true := by
  match cs with
  | [] => exact h
  | [c] =>
    have h1 : allTree P c = true := by
      rw [show allForest P [c] = (allTree P c && true) from rfl, Bool.and_true] at h
      exact h
    cases hca : c.isArray with
    | true =>
      simp only [flattenStep, hca, if_true]
      rw [allTree_def, Bool.and_eq_true] at h1
      exact h1.2
    | false =>
      simp only [flattenStep, hca, Bool.false_eq_true, if_false]
      exact h
  | c :: d :: rest =>
    show allForest P (flattenLoop none (c :: d :: rest)) = true
    exact allForest_flattenLoop hP (c :: d :: rest) none
      (fun q b hqb => Option.noConfusion hqb) h

mutual

/-- A node-local predicate survives `_flattenArrays` on a tree. -/
theorem allTree_flattenArrays {P : YamlObjectNode → Bool}
    (hP : ∀ n cs', P (n.withChildren cs') = P n) (t : YamlObjectNode)
    (h : allTree P t = true) : allTree P (flattenArrays t) = true := by
  cases t with
  | mk k v cs s e a =>
    rw [allTree_def, Bool.and_eq_true] at h
    rw [show flattenArrays (.mk k v cs s e a) =
      .mk k v (flattenStep (flattenList cs)) s e a from rfl, allTree_def, Bool.and_eq_true]
    constructor
    · have := hP (.mk k v cs s e a) (flattenStep (flattenList cs))
      rw [show (YamlObjectNode.mk k v cs s e a).withChildren (flattenStep (flattenList cs)) =
        .mk k v (flattenStep (flattenList cs)) s e a from rfl] at this
      rw [this]
      exact h.1
    · exact allForest_flattenStep hP (flattenList cs) (allForest_flattenList hP cs h.2)

/-- A node-local predicate survives `_flattenArrays` on a forest. -/
theorem allForest_flattenList {P : YamlObjectNode → Bool}
    (hP : ∀ n cs', P (n.withChildren cs') = P n) (ts : List YamlObjectNode)
    (h : allForest P ts = true) : allForest P (flattenList ts) = true := by
  cases ts with
  | nil => rfl
  | cons t rest =>
    rw [show allForest P (t :: rest) = (allTree P t && allForest P rest) from rfl,
      Bool.and_eq_true] at h
    rw [show flattenList (t :: rest) = flattenArrays t :: flattenList rest from rfl]
    rw [show allForest P (flattenArrays t :: flattenList rest) =
      (allTree P (flattenArrays t) && allForest P (flattenList rest)) from rfl,
      Bool.and_eq_true]
    exact ⟨allTree_flattenArrays hP t h.1, allForest_flattenList hP rest h.2⟩

end

/-- `nodeValueOk` does not look at children. -/
theorem nodeValueOk_withChildren (n : YamlObjectNode) (cs : List YamlObjectNode) :
    nodeValueOk (n.withChildren cs) = nodeValueOk n := by cases n; rfl

mutual

/-- Every node pass 1 creates satisfies the value discipline: wrappers
carry no value, property-derived nodes carry one. -/
theorem visitNode_valueOk (d : TextDocument) (anc : Option String)
    (os : Option (Nat × Nat)) (t : ASTNode) :
    allForest nodeValueOk (visitNode d anc os t) = true := by
  cases t with
  | prop s e k v =>
    by_cases hk : k ∈ recognizedKeys
    · by_cases ha : anc = some "task"
      · simp only [visitNode, hk, if_true, ha, if_pos rfl]
        exact visitNode_valueOk d (some "task") os v
      · simp only [visitNode, hk, if_true, if_neg ha]
        rw [show allForest nodeValueOk
          [YamlObjectNode.mk k (some v.getValue) (visitNode d (some k) os v)
            (d.positionAt (os.getD (s, e)).1) (d.positionAt (os.getD (s, e)).2) false] =
          (allTree nodeValueOk
            (.mk k (some v.getValue) (visitNode d (some k) os v)
              (d.positionAt (os.getD (s, e)).1) (d.positionAt (os.getD (s, e)).2) false) &&
            true) from rfl, Bool.and_true, allTree_def, Bool.and_eq_true]
        exact ⟨rfl, visitNode_valueOk d (some k) os v⟩
    · simp only [visitNode, hk, if_false]
      exact visitNode_valueOk d anc os v
  | obj s e props => exact visitList_valueOk d anc (some (s, e)) props
  | arr loc s e items =>
    by_cases hl : loc ∈ recognizedLocations
    · simp only [visitNode, hl, if_true]
      rw [show allForest nodeValueOk
        [YamlObjectNode.mk loc none (visitList d (some loc) os items)
          (d.positionAt s) (d.positionAt e) true] =
        (allTree nodeValueOk
          (.mk loc none (visitList d (some loc) os items)
            (d.positionAt s) (d.positionAt e) true) && true) from rfl,
        Bool.and_true, allTree_def, Bool.and_eq_true]
      exact ⟨rfl, visitList_valueOk d (some loc) os items⟩
    · simp only [visitNode, hl, if_false]
      exact visitList_valueOk d anc os items
  | scalar s e v => rfl

/-- List version of `visitNode_valueOk`. -/
theorem visitList_valueOk (d : TextDocument) (anc : Option String)
    (os : Option (Nat × Nat)) (ts : List ASTNode) :
    allForest nodeValueOk (visitList d anc os ts) = true := by
  cases ts with
  | nil => rfl
  | cons n ns =>
    rw [show visitList d anc os (n :: ns) =
      visitNode d anc os n ++ visitList d anc os ns from rfl,
      allForest_append, Bool.and_eq_true]
    exact ⟨visitNode_valueOk d anc os n, visitList_valueOk d anc os ns⟩

end

/-- C8 (amended): the synthetic root of every returned tree carries the
literal value `root` (not an absent value), and below it wrappers carry
no value while every other (property-derived) node carries one. -/
theorem root_and_wrapper_values (d : TextDocument) (yd : YAMLDocument)
    (r : YamlObjectNode) (h : getObjectTree d yd = some r) :
    r.key = "root" ∧ r.value = some "root" ∧ r.isArray = false ∧
    allForest nodeValueOk r.children = true := by
  cases hyd : yd.documents with
  | nil =>
    rw [getObjectTree, hyd] at h
    exact Option.noConfusion h
  | cons jd rest =>
    rw [getObjectTree, hyd] at h
    obtain rfl := (Option.some.inj h).symm
    refine ⟨by rw [flattenArrays_key]; rfl, by rw [flattenArrays_value]; rfl,
      by rw [flattenArrays_isArray]; rfl, ?_⟩
    rw [flattenArrays_children]
    exact allForest_flattenStep nodeValueOk_withChildren _
      (allForest_flattenList nodeValueOk_withChildren _
        (visitNode_valueOk d none none jd.root))

/-- Witness for the amended C8 on the concrete outline of `ydC8`. -/
theorem root_and_wrapper_values_witness :
    rootC8.key = "root" ∧ rootC8.value = some "root" ∧ rootC8.isArray = false ∧
    allForest nodeValueOk rootC8.children = true :=
  root_and_wrapper_values docId ydC8 rootC8 rfl

/-- C8 (counterexample): the synthetic root's `value` is the string
`root`, not absent as claimed. -/
theorem root_value_not_absent :
    (getObjectTree docId ydC8).map YamlObjectNode.value = some (some "root") := rfl

/-- Splitting a consecutive-number list. -/
theorem range'_split : ∀ (m s n : Nat),
    List.range' s (m + n) = List.range' s m ++ List.range' (s + m) n := by
  intro m
  induction m with
  | zero => intro s n; simp
  | succ m ih =>
    intro s n
    rw [show m + 1 + n = (m + n) + 1 from by omega, List.range'_succ,
      List.range'_succ, ih (s + 1) n, show s + 1 + m = s + (m + 1) from by omega]
    rfl

mutual

/-- The tag writes of a build carry consecutive ids starting at the
incoming counter, and the counter advances by exactly the number of
writes. -/
theorem tagVisit_ids (anc : Option String) (cnt : Nat) (path : List Nat) (t : ASTNode) :
    (tagVisit anc cnt path t).2.map Prod.snd =
      List.range' cnt (tagVisit anc cnt path t).2.length ∧
    (tagVisit anc cnt path t).1 = cnt + (tagVisit anc cnt path t).2.length := by
  cases t with
  | prop s e k v =>
    by_cases hk : k ∈ recognizedKeys
    · by_cases ha : anc = some "task"
      · simp only [tagVisit, hk, if_true, ha, if_pos rfl]
        exact tagVisit_ids (some "task") cnt (path ++ [0]) v
      · simp only [tagVisit, hk, if_true, if_neg ha]
        have ih := tagVisit_ids (some k) (cnt + 1) (path ++ [0]) v
        constructor
        · rw [List.map_cons, List.length_cons, List.range'_succ, ih.1]
        · rw [List.length_cons, ih.2]
          omega
    · simp only [tagVisit, hk, if_false]
      exact tagVisit_ids anc cnt (path ++ [0]) v
  | obj s e props => exact tagVisitList_ids anc cnt path 0 props
  | arr loc s e items =>
    by_cases hl : loc ∈ recognizedLocations
    · simp only [tagVisit, hl, if_true]
      have ih := tagVisitList_ids (some loc) (cnt + 1) path 0 items
      constructor
      · rw [List.map_cons, List.length_cons, List.range'_succ, ih.1]
      · rw [List.length_cons, ih.2]
        omega
    · simp only [tagVisit, hl, if_false]
      exact tagVisitList_ids anc cnt path 0 items
  | scalar s e v => exact ⟨rfl, rfl⟩

/-- List version of `tagVisit_ids`. -/
theorem tagVisitList_ids (anc : Option String) (cnt : Nat) (path : List Nat) (i : Nat)
    (ns : List ASTNode) :
    (tagVisitList anc cnt path i ns).2.map Prod.snd =
      List.range' cnt (tagVisitList anc cnt path i ns).2.length ∧
    (tagVisitList anc cnt path i ns).1 = cnt + (tagVisitList anc cnt path i ns).2.length := by
  cases ns with
  | nil => exact ⟨rfl, rfl⟩
  | cons n rest =>
    have ihn := tagVisit_ids anc cnt (path ++ [i]) n
    have ihl := tagVisitList_ids anc (tagVisit anc cnt (path ++ [i]) n).1 path (i + 1) rest
    simp only [tagVisitList]
    constructor
    · rw [List.map_append, List.length_append, ihn.1, ihl.1, ihn.2, range'_split]
    · rw [List.length_append, ihl.2, ihn.2]
      omega

end

/-- C9 (amended): the `tempId` tags written during a build are assigned
monotonically (consecutive ids from `0` in write order), and they are
NOT discarded at the end of the call — `tagsAfterBuild` still holds
every write when `getObjectTree` returns (the source never deletes a
tag); the id-to-node map itself (`nodeMap`) is a call-local variable. -/
theorem tempIds_monotone_in_build (yd : YAMLDocument) :
    (tagsAfterBuild yd).map Prod.snd = List.range' 0 (tagsAfterBuild yd).length := by
  cases hyd : yd.documents with
  | nil => rw [tagsAfterBuild, hyd]; rfl
  | cons jd rest =>
    rw [tagsAfterBuild, hyd]
    exact (tagVisit_ids none 0 [] jd.root).1

/-- C9 (counterexample): after building the outline of `ydC9` one id tag
remains on the AST — the tags are not transient. -/
theorem tempIds_not_discarded :
    tagsAfterBuild ydC9 = [([0], 0)] ∧ tagsAfterBuild ydC9 ≠ [] :=
  ⟨rfl, by decide⟩

/-- A non-object node exposes no properties. -/
theorem objProperties_eq_nil_of_not_isObj {n : ASTNode} (h : n.isObj = false) :
    n.objProperties = [] := by
  cases n with
  | obj s e ps => exact absurd h (by simp [ASTNode.isObj])
  | arr loc s e items => rfl
  | prop s e k v => rfl
  | scalar s e v => rfl

/-- C7: with a resolved enclosing object, a property-name match count
other than one yields the absent map, while a single match whose value
is not object-shaped yields the empty (present) map. -/
theorem reader_scope_absent_or_empty (d : TextDocument) (yd : YAMLDocument)
    (jd : JSONDocument) (rest : List JSONDocument) (pos : Position) (name : String)
    (o : ASTNode) (hdocs : yd.documents = jd :: rest)
    (hobj : nearestObjectAt (d.offsetAt pos) jd.root = some o) :
    ((o.objProperties.filter (fun p => p.propKey = name)).length ≠ 1 →
      (getNodePropertyValues (some d) yd pos name).values = none) ∧
    (∀ p, o.objProperties.filter (fun p => p.propKey = name) = [p] →
      p.propValue.isObj = false →
      (getNodePropertyValues (some d) yd pos name).values = some []) := by
  constructor
  · intro hlen
    simp only [getNodePropertyValues, hdocs, hobj]
    rw [if_pos hlen]
  · intro p hp hshape
    simp only [getNodePropertyValues, hdocs, hobj]
    rw [hp]
    rw [if_neg (by simp)]
    show (YamlNodePropertyValues.mk (some (buildValueMap p.propValue.objProperties))).values =
      some []
    rw [objProperties_eq_nil_of_not_isObj hshape]
    rfl

/-- Witness for C7: no `inputs` property around the cursor in `ydC7`,
so the reader yields the absent map. -/
theorem reader_scope_absent_witness :
    (getNodePropertyValues (some docId) ydC7 ⟨0, 1⟩ "inputs").values = none :=
  (reader_scope_absent_or_empty docId ydC7 ⟨astC7⟩ [] ⟨0, 1⟩ "inputs" astC7 rfl rfl).1
    (by decide)

/-- Lookup through one binding. -/
theorem lookupValue_cons (q : String × String) (m : List (String × String)) (k : String) :
    lookupValue (q :: m) k = if q.1 = k then some q.2 else lookupValue m k := by
  by_cases h : q.1 = k
  · rw [lookupValue, List.find?_cons_of_pos _ (by simp [h]), if_pos h]
    rfl
  · rw [lookupValue, List.find?_cons_of_neg _ (by simp [h]), if_neg h]
    rfl

/-- Appending a fresh binding: lookups of its key now find it, others
are untouched. -/
theorem lookupValue_append_singleton (m : List (String × String)) (a b k : String)
    (han : m.any (fun q => q.1 = a) = false) :
    lookupValue (m ++ [(a, b)]) k = if a = k then some b else lookupValue m k := by
  induction m with
  | nil =>
    rw [List.nil_append, lookupValue_cons]
  | cons q m' ih =>
    rw [List.any_cons, Bool.or_eq_false_iff] at han
    have hqa : q.1 ≠ a := by simpa using han.1
    rw [List.cons_append, lookupValue_cons, lookupValue_cons, ih han.2]
    by_cases hqk : q.1 = k
    · have hak : a ≠ k := fun h => hqa (hqk.trans h.symm)
      rw [if_pos hqk, if_pos hqk, if_neg hak]
    · rw [if_neg hqk, if_neg hqk]

/-- Overwriting a key in place: lookups of that key see the new value
exactly when the key was bound, others are untouched. -/
theorem lookupValue_map_overwrite (m : List (String × String)) (a b k : String) :
    lookupValue (m.map (fun q => if q.1 = a then (a, b) else q)) k =
      if a = k then (if m.any (fun q => q.1 = a) then some b else none)
      else lookupValue m k := by
  induction m with
  | nil =>
    by_cases hak : a = k
    · rw [List.map_nil, if_pos hak]
      rfl
    · rw [List.map_nil, if_neg hak]
  | cons q m' ih =>
    rw [List.map_cons, List.any_cons]
    by_cases hqa : q.1 = a
    · rw [if_pos hqa, lookupValue_cons]
      by_cases hak : a = k
      · have hany : (decide (q.1 = a) || (m'.any fun q => decide (q.1 = a))) = true := by
          simp [hqa]
        rw [if_pos (show ((a, b) : String × String).1 = k from hak), if_pos hak,
          if_pos hany]
      · have hqk : ¬ q.1 = k := by rw [hqa]; exact hak
        rw [if_neg (show ¬ ((a, b) : String × String).1 = k from hak), ih, if_neg hak,
          if_neg hak, lookupValue_cons, if_neg hqk]
    · rw [if_neg hqa, lookupValue_cons]
      by_cases hqk : q.1 = k
      · have hak : ¬ a = k := fun h => hqa (hqk.trans h.symm)
        rw [if_pos hqk, if_neg hak, lookupValue_cons, if_pos hqk]
      · have hor : (decide (q.1 = a) || (m'.any fun q => decide (q.1 = a))) =
            (m'.any fun q => decide (q.1 = a)) := by simp [hqa]
        rw [if_neg hqk, ih, hor, lookupValue_cons, if_neg hqk]

/-- One map assignment: the assigned key reads back the new value,
every other key is untouched. -/
theorem lookupValue_insertValue (m : List (String × String)) (a b k : String) :
    lookupValue (insertValue m a b) k = if a = k then some b else lookupValue m k := by
  by_cases han : m.any (fun q => q.1 = a) = true
  · rw [insertValue, if_pos han, lookupValue_map_overwrite, han]
    by_cases hak : a = k
    · rw [if_pos hak, if_pos hak, if_pos rfl]
    · rw [if_neg hak, if_neg hak]
  · have han' : m.any (fun q => q.1 = a) = false := by
      cases h : m.any (fun q => q.1 = a) with
      | true => exact absurd h han
      | false => rfl
    rw [insertValue, if_neg han]
    exact lookupValue_append_singleton m a b k han'

/-- Reading the folded value map: the last property with a given key in
document order wins, and untouched keys read from the seed map. -/
theorem lookupValue_foldl (ps : List ASTNode) :
    ∀ (m : List (String × String)) (k : String),
      lookupValue (ps.foldl (fun acc p => insertValue acc p.propKey p.propValue.getValue) m) k =
        match (ps.filter (fun q => q.propKey = k)).getLast? with
        | some q => some q.propValue.getValue
        | none => lookupValue m k := by
  induction ps using List.reverseRecOn with
  | nil => intro m k; rfl
  | append_singleton ps p ih =>
    intro m k
    rw [List.foldl_append, List.foldl_cons, List.foldl_nil, lookupValue_insertValue,
      List.filter_append]
    by_cases hpk : p.propKey = k
    · rw [show List.filter (fun q => decide (q.propKey = k)) [p] = [p] from by simp [hpk],
        List.getLast?_concat, if_pos hpk]
    · rw [show List.filter (fun q => decide (q.propKey = k)) [p] = [] from by simp [hpk],
        List.append_nil, if_neg hpk, ih m k]

/-- The key list after one assignment. -/
theorem keys_insertValue (m : List (String × String)) (a b : String) :
    (insertValue m a b).map Prod.fst =
      if m.any (fun q => q.1 = a) then m.map Prod.fst else m.map Prod.fst ++ [a] := by
  by_cases han : m.any (fun q => q.1 = a) = true
  · rw [insertValue, if_pos han, if_pos han, List.map_map]
    apply List.map_congr_left
    intro x _
    by_cases hxa : x.1 = a
    · show ((if x.1 = a then (a, b) else x)).1 = x.1
      rw [if_pos hxa]
      exact hxa.symm
    · show ((if x.1 = a then (a, b) else x)).1 = x.1
      rw [if_neg hxa]
  · rw [insertValue, if_neg han, if_neg han, List.map_append]
    rfl

/-- One assignment keeps the keys duplicate-free. -/
theorem keys_nodup_insertValue (m : List (String × String)) (a b : String)
    (h : (m.map Prod.fst).Nodup) : ((insertValue m a b).map Prod.fst).Nodup := by
  rw [keys_insertValue]
  by_cases han : m.any (fun q => q.1 = a) = true
  · rw [if_pos han]
    exact h
  · rw [if_neg han]
    have hnotmem : a ∉ m.map Prod.fst := by
      intro hmem
      rcases List.mem_map.mp hmem with ⟨q, hq, hqa⟩
      exact han (List.any_eq_true.mpr ⟨q, hq, by simp [hqa]⟩)
    refine List.Nodup.append h (List.nodup_singleton a) ?_
    intro x hx hx2
    rw [List.mem_singleton.mp hx2] at hx
    exact hnotmem hx

/-- Folding assignments keeps the keys duplicate-free. -/
theorem keys_nodup_foldl (ps : List ASTNode) :
    ∀ (m : List (String × String)), (m.map Prod.fst).Nodup →
      ((ps.foldl (fun acc p => insertValue acc p.propKey p.propValue.getValue) m).map
        Prod.fst).Nodup := by
  induction ps with
  | nil => intro m h; exact h
  | cons p ps ih =>
    intro m h
    rw [List.foldl_cons]
    exact ih _ (keys_nodup_insertValue m p.propKey p.propValue.getValue h)

/-- The built value map holds at most one entry per key. -/
theorem buildValueMap_keys_nodup (ps : List ASTNode) :
    ((buildValueMap ps).map Prod.fst).Nodup :=
  keys_nodup_foldl ps [] List.nodup_nil

/-- C10: with a single `propertyName` match whose value is an object,
the reader returns the map built from that object's properties; each key
reads back the stringified value of the LAST property with that key in
document order, and the map holds one entry per distinct key. -/
theorem reader_last_occurrence_wins (d : TextDocument) (yd : YAMLDocument)
    (jd : JSONDocument) (rest : List JSONDocument) (pos : Position) (name : String)
    (o p : ASTNode) (s e : Nat) (ps : List ASTNode)
    (hdocs : yd.documents = jd :: rest)
    (hobj : nearestObjectAt (d.offsetAt pos) jd.root = some o)
    (hfilter : o.objProperties.filter (fun q => q.propKey = name) = [p])
    (hval : p.propValue = .obj s e ps) :
    (getNodePropertyValues (some d) yd pos name).values = some (buildValueMap ps) ∧
    (∀ k, lookupValue (buildValueMap ps) k =
      ((ps.filter (fun q => q.propKey = k)).getLast?).map
        (fun q => q.propValue.getValue)) ∧
    ((buildValueMap ps).map Prod.fst).Nodup := by
  refine ⟨?_, ?_, buildValueMap_keys_nodup ps⟩
  · simp only [getNodePropertyValues, hdocs, hobj]
    rw [hfilter]
    rw [if_neg (by simp)]
    show (YamlNodePropertyValues.mk
      (some (buildValueMap p.propValue.objProperties))).values = _
    rw [hval]
    rfl
  · intro k
    rw [buildValueMap, lookupValue_foldl ps [] k]
    cases hL : (ps.filter (fun q => q.propKey = k)).getLast? with
    | none => rfl
    | some q => rfl

/-- Witness for C10 on `ydC10`, whose `inputs` object repeats key `x`:
the map binds `x` to the later value. -/
theorem reader_last_occurrence_wins_witness :
    (getNodePropertyValues (some docId) ydC10 ⟨0, 2⟩ "inputs").values =
      some (buildValueMap propsC10) :=
  (reader_last_occurrence_wins docId ydC10 ⟨astC10⟩ [] ⟨0, 2⟩ "inputs" astC10
    (.prop 1 19 "inputs" valObjC10) 5 19 propsC10 rfl rfl rfl rfl).1






